import Mathlib

/-!
Verification of `textxtract` (DOCX text-extraction handler and its
dispatch framework) against its natural-language specification.

The Python source `textxtract/handlers/docx.py` is shallowly embedded:
strings are `String` (lists of `Char`), Python's `str.strip` becomes
`pyStrip`, the three regex substitutions inside `DOCXHandler._clean_text`
become the executable functions `collapseWs`, `collapseDots` and
`fixPunct`, and the stateful traversal of the document inside
`DOCXHandler.extract` becomes explicit state passing over
`St = (text_parts, processed_text)`.
-/

namespace Textxtract

/-- Embedding of Python `str.strip` on the underlying character list:
drop whitespace from the front, then from the back. -/
def stripChars (cs : List Char) : List Char :=
  ((cs.dropWhile Char.isWhitespace).reverse.dropWhile Char.isWhitespace).reverse

/-- Embedding of Python `str.strip` on `String`. -/
def pyStrip (s : String) : String := ⟨stripChars s.data⟩

/-- Embedding of `re.sub(r'\s+', ' ', text)`: every maximal run of
whitespace characters is replaced by a single space. -/
def collapseWs : List Char → List Char
  | [] => []
  | [c] => if c.isWhitespace then [' '] else [c]
  | c :: d :: cs =>
    if c.isWhitespace then
      if d.isWhitespace then collapseWs (d :: cs)
      else ' ' :: collapseWs (d :: cs)
    else c :: collapseWs (d :: cs)

/-- Auxiliary for `collapseDots`: `n` counts the pending run of dots. -/
def collapseDotsAux : Nat → List Char → List Char
  | n, [] => if 2 ≤ n then [' '] else List.replicate n '.'
  | n, c :: cs =>
    if c = '.' then collapseDotsAux (n + 1) cs
    else (if 2 ≤ n then [' '] else List.replicate n '.') ++ c :: collapseDotsAux 0 cs

/-- Embedding of `re.sub(r'\.{2,}', ' ', text)`: every maximal run of two
or more dots is replaced by a single space. -/
def collapseDots (cs : List Char) : List Char := collapseDotsAux 0 cs

/-- The punctuation class `[.!?,:;]` of `_clean_text`'s third regex. -/
def isPunct (c : Char) : Bool :=
  c = '.' || c = '!' || c = '?' || c = ',' || c = ':' || c = ';'

/-- Auxiliary for `fixPunct`; the first argument is the pending whitespace
run not yet emitted. -/
def fixPunctAux : List Char → List Char → List Char
  | pend, [] => pend
  | pend, c :: cs =>
    if c.isWhitespace then fixPunctAux (pend ++ [c]) cs
    else if isPunct c ∧ pend ≠ [] then c :: fixPunctAux [] cs
    else pend ++ c :: fixPunctAux [] cs

/-- Embedding of `re.sub(r'\s+([.!?,:;])', r'\1', text)`: a whitespace run
immediately followed by a punctuation character is deleted. -/
def fixPunct (cs : List Char) : List Char := fixPunctAux [] cs

/-- Embedding of `DOCXHandler._clean_text`: the empty string is returned
unchanged, otherwise the three regex substitutions are applied in order
and the result is stripped. -/
def clean_text (s : String) : String :=
  if s = "" then ""
  else ⟨stripChars (fixPunct (collapseDots (collapseWs s.data)))⟩

example : clean_text "  hello   world  " = "hello world" := by decide
example : clean_text "a. ." = "a.." := by decide
example : clean_text "a.." = "a" := by decide
example : clean_text " \t " = "" := by decide

/-- `[A-Z]` of the sentence-break regex (ASCII uppercase). -/
def isUpperAZ (c : Char) : Bool := 'A' ≤ c && c ≤ 'Z'

/-- The sentence-end class `[.!?]` of the sentence-break regex. -/
def isSentEnd (c : Char) : Bool := c = '.' || c = '!' || c = '?'

/-- Auxiliary for `sentenceBreaks`; the first argument is the pending
match prefix: a sentence-end character followed by the whitespace run
read so far (empty when no match is pending). -/
def sentAux : List Char → List Char → List Char
  | pend, [] => pend
  | pend, c :: cs =>
    match pend with
    | [] => if isSentEnd c then sentAux [c] cs else c :: sentAux [] cs
    | p :: ws =>
      if c.isWhitespace then sentAux (p :: (ws ++ [c])) cs
      else if isUpperAZ c then p :: '\n' :: c :: sentAux [] cs
      else if isSentEnd c then (p :: ws) ++ sentAux [c] cs
      else (p :: ws) ++ c :: sentAux [] cs

/-- Embedding of `re.sub(r'([.!?])\s*([A-Z])', r'\1\n\2', result)`:
a sentence-end character, optional whitespace, and an ASCII uppercase
letter are rewritten with a newline between them. -/
def sentenceBreaks (cs : List Char) : List Char := sentAux [] cs

example : String.mk (sentenceBreaks "a. B".data) = "a.\nB" := by decide
example : String.mk (sentenceBreaks "a.b".data) = "a.b" := by decide

/-! ## The document model

`python-docx` objects are embedded by the lists of raw paragraph texts
that `DOCXHandler.extract` reads from them.  A table is a list of rows,
a row a list of cells, a cell a list of paragraph texts.  A section is a
pair of optional header/footer paragraph lists (`none` embeds a falsy
`section.header`).  `footnotes`/`endnotes` are `none` when
`hasattr(doc, ...)` is false; otherwise they hold the notes whose
paragraphs the loop yielded before any exception, and `notesRaise` marks
that an exception was raised inside the footnote/endnote `try` block at
that point (Python list/set mutations performed before the exception
persist).  Likewise `textboxes`/`textboxesRaise` for the text-box XML
walk. -/

structure Document where
  paragraphs : List String
  tables : List (List (List (List String)))
  sections : List (Option (List String) × Option (List String))
  footnotes : Option (List (List String))
  endnotes : Option (List (List String))
  notesRaise : Bool
  textboxes : List String
  textboxesRaise : Bool

/-- The traversal state of `DOCXHandler.extract`:
`(text_parts, processed_text)`.  Python's `processed_text` set is kept as
the list of its elements in insertion order. -/
abbrev St := List String × List String

/-- One body/header/footer paragraph: strip, and append when non-empty
and not yet processed. -/
def procPara (st : St) (p : String) : St :=
  let text := pyStrip p
  if text ≠ "" ∧ text ∉ st.2 then (st.1 ++ [text], st.2 ++ [text]) else st

/-- A list of paragraphs in order. -/
def procParas (st : St) (ps : List String) : St := ps.foldl procPara st

/-- One paragraph inside a table cell; the first component accumulates
`cell_paragraphs`, the second is `processed_text`. -/
def procCellPara (acc : List String × List String) (p : String) :
    List String × List String :=
  let text := pyStrip p
  if text ≠ "" ∧ text ∉ acc.2 then (acc.1 ++ [text], acc.2 ++ [text]) else acc

/-- One table cell; the first component accumulates `row_text`. -/
def procCell (acc : List String × List String) (cell : List String) :
    List String × List String :=
  let r := cell.foldl procCellPara ([], acc.2)
  if r.1 ≠ [] then (acc.1 ++ [String.intercalate " " r.1], r.2) else (acc.1, r.2)

/-- One table row; the first component accumulates `table_texts`. -/
def procRow (acc : List String × List String) (row : List (List String)) :
    List String × List String :=
  let r := row.foldl procCell ([], acc.2)
  if r.1 ≠ [] then (acc.1 ++ [String.intercalate " | " r.1], r.2)
  else (acc.1, r.2)

/-- One table: its `table_texts` are appended to `text_parts` at the end. -/
def procTable (st : St) (table : List (List (List String))) : St :=
  let r := table.foldl procRow ([], st.2)
  (st.1 ++ r.1, r.2)

/-- One section: header paragraphs, then footer paragraphs. -/
def procSection (st : St) (sec : Option (List String) × Option (List String)) :
    St :=
  let st1 := match sec.1 with
    | some hs => procParas st hs
    | none => st
  match sec.2 with
  | some fs => procParas st1 fs
  | none => st1

/-- One footnote/endnote/text-box paragraph: the labelled form
`"[<label>: <text>]"` goes to `text_parts`, the bare stripped text to
`processed_text`. -/
def procNote (label : String) (st : St) (p : String) : St :=
  let text := pyStrip p
  if text ≠ "" ∧ text ∉ st.2 then
    (st.1 ++ ["[" ++ label ++ ": " ++ text ++ "]"], st.2 ++ [text])
  else st

/-- All notes of one kind, each note a list of paragraphs. -/
def procNotes (label : String) (st : St) (notes : List (List String)) : St :=
  notes.foldl (fun s n => n.foldl (procNote label) s) st

/-- The footnote/endnote `try` block.  An `Except.error` result carries
the traversal state at the moment the exception was raised. -/
def notesStepRaw (doc : Document) (st : St) : Except St St :=
  let st1 := match doc.footnotes with
    | some f => procNotes "Footnote" st f
    | none => st
  let st2 := match doc.endnotes with
    | some e => procNotes "Endnote" st1 e
    | none => st1
  if doc.notesRaise then Except.error st2 else Except.ok st2

/-- The text-box `try` block, with the same exception convention. -/
def textboxStepRaw (doc : Document) (st : St) : Except St St :=
  let st1 := doc.textboxes.foldl (procNote "TextBox") st
  if doc.textboxesRaise then Except.error st1 else Except.ok st1

/-- `except Exception: pass`: the exception is swallowed and the
mutations already performed persist. -/
def recover : Except St St → St
  | Except.ok st => st
  | Except.error st => st

/-- The whole traversal of `DOCXHandler.extract` in source order:
body paragraphs, tables, section headers/footers, the best-effort
footnote/endnote block, the best-effort text-box block. -/
def collect (doc : Document) : St :=
  let st := procParas ([], []) doc.paragraphs
  let st := doc.tables.foldl procTable st
  let st := doc.sections.foldl procSection st
  let st := recover (notesStepRaw doc st)
  recover (textboxStepRaw doc st)

/-- The output formatting of `DOCXHandler.extract`: on a non-empty
`text_parts`, clean every part that strips non-empty, join with newlines,
insert sentence breaks, strip; otherwise return `""`. -/
def finalize (parts : List String) : String :=
  if parts = [] then ""
  else
    let cleaned := (parts.filter (fun p => pyStrip p ≠ "")).map clean_text
    pyStrip ⟨sentenceBreaks (String.intercalate "\n" cleaned).data⟩

/-- Text extraction from a successfully loaded document. -/
def extractDoc (doc : Document) : String := finalize (collect doc).1

/-- The Python exceptions relevant to `DOCXHandler.extract`: either an
`ExtractionError` or any other exception kind, each carrying the string
the interpreter would render for it. -/
inductive PyError where
  | extractionError (msg : String)
  | otherError (msg : String)
deriving DecidableEq

/-- The `f"{e}"` rendering of an exception. -/
def errMsg : PyError → String
  | PyError.extractionError m => m
  | PyError.otherError m => m

/-- Embedding of `DOCXHandler.extract`.  The argument is the outcome of
`Document(file_path)` (and the imports): a loaded document, or the
exception it raised.  The surrounding `try`/`except` re-raises any
exception as `ExtractionError(f"DOCX extraction failed: {e}")`. -/
def extract (load : Except PyError Document) : Except PyError String :=
  match load with
  | Except.error e =>
      Except.error (PyError.extractionError ("DOCX extraction failed: " ++ errMsg e))
  | Except.ok doc => Except.ok (extractDoc doc)

/-- Embedding of `DOCXHandler.extract_async`, which runs
`self.extract` on a worker thread via `asyncio.to_thread` and returns
its result unchanged. -/
def extract_async (load : Except PyError Document) : Except PyError String :=
  extract load

example :
    extract (Except.ok ⟨["Hello world", "Hello world", "Bye. Now"],
      [], [], none, none, false, [], false⟩) =
    Except.ok "Hello world\nBye.\nNow" := rfl

/-! ## The dispatch framework (registry, configuration, orchestrator) -/

/-- Modelled from the spec: extension normalization of the Handler
Registry (`core/registry.py` is not part of the provided sources) —
"normalizes extension (lowercase, strip leading dot)". -/
def normalizeExt (ext : String) : String :=
  ⟨match ext.data.map Char.toLower with
   | '.' :: rest => rest
   | cs => cs⟩

/-- Modelled from the spec: `register(extension, handler)` of the Handler
Registry — "overwrites any existing entry for that extension", keeping at
most one handler per normalized extension.  The registry is the list of
its entries. -/
def register {H : Type} (r : List (String × H)) (ext : String) (h : H) :
    List (String × H) :=
  (normalizeExt ext, h) :: r.filter (fun p => p.1 ≠ normalizeExt ext)

/-- Modelled from the spec: `lookup(extension)` of the Handler Registry —
normalizes the same way; a miss returns no handler. -/
def lookup {H : Type} (r : List (String × H)) (ext : String) : Option H :=
  (r.find? (fun p => p.1 = normalizeExt ext)).map Prod.snd

/-- A raw configuration option value. -/
inductive OptValue where
  | num (n : Int)
  | str (s : String)
  | strs (l : List String)
deriving DecidableEq

/-- Modelled from the spec: the error raised by configuration
validation. -/
structure ConfigurationError where
  msg : String
deriving DecidableEq

/-- Modelled from the spec: a validated, immutable Configuration. -/
structure Configuration where
  timeout_seconds : Int
  max_file_size_bytes : Int
  encoding : String
  allowed_extensions : List String
deriving DecidableEq

/-- The option keys the Configuration recognizes (spec §4.1). -/
def recognizedOptions : List String :=
  ["timeout_seconds", "max_file_size_bytes", "encoding", "allowed_extensions"]

/-- The value bound to a key in a raw option set. -/
def lookupOpt (raw : List (String × OptValue)) (k : String) : Option OptValue :=
  (raw.find? (fun kv => kv.1 = k)).map Prod.snd

/-- Modelled from the spec: `timeout_seconds` — defaulted positive, a
non-positive value is a ConfigurationError. -/
def getTimeout (raw : List (String × OptValue)) :
    Except ConfigurationError Int :=
  match lookupOpt raw "timeout_seconds" with
  | none => Except.ok 10
  | some (OptValue.num n) =>
      if n ≤ 0 then Except.error ⟨"timeout_seconds must be positive"⟩
      else Except.ok n
  | some _ => Except.error ⟨"timeout_seconds must be a number"⟩

/-- Modelled from the spec: `max_file_size_bytes` — defaulted, a negative
value is a ConfigurationError. -/
def getMaxSize (raw : List (String × OptValue)) :
    Except ConfigurationError Int :=
  match lookupOpt raw "max_file_size_bytes" with
  | none => Except.ok 10485760
  | some (OptValue.num n) =>
      if n < 0 then Except.error ⟨"max_file_size_bytes must be non-negative"⟩
      else Except.ok n
  | some _ => Except.error ⟨"max_file_size_bytes must be a number"⟩

/-- Modelled from the spec: `encoding`, defaulting to `"utf-8"`. -/
def getEncoding (raw : List (String × OptValue)) :
    Except ConfigurationError String :=
  match lookupOpt raw "encoding" with
  | none => Except.ok "utf-8"
  | some (OptValue.str s) => Except.ok s
  | some _ => Except.error ⟨"encoding must be a string"⟩

/-- Modelled from the spec: `allowed_extensions`, unrestricted by
default. -/
def getAllowed (raw : List (String × OptValue)) :
    Except ConfigurationError (List String) :=
  match lookupOpt raw "allowed_extensions" with
  | none => Except.ok []
  | some (OptValue.strs l) => Except.ok l
  | some _ => Except.error ⟨"allowed_extensions must be a list of strings"⟩

/-- Modelled from the spec: `validate(raw_options)` of the Configuration
component (`core/config.py` is not part of the provided sources) —
"Unknown option keys fail with ConfigurationError. Out-of-range numeric
values (≤0 timeout, negative size) fail with ConfigurationError." -/
def validate (raw : List (String × OptValue)) :
    Except ConfigurationError Configuration :=
  if raw.any (fun kv => decide (kv.1 ∉ recognizedOptions)) then
    Except.error ⟨"unknown option key"⟩
  else
    match getTimeout raw with
    | Except.error e => Except.error e
    | Except.ok t =>
      match getMaxSize raw with
      | Except.error e => Except.error e
      | Except.ok m =>
        match getEncoding raw with
        | Except.error e => Except.error e
        | Except.ok enc =>
          match getAllowed raw with
          | Except.error e => Except.error e
          | Except.ok a => Except.ok ⟨t, m, enc, a⟩

/-- The facts about the target file the orchestrator checks: existence,
size, extension. -/
structure FileInfo where
  present : Bool
  size : Nat
  ext : String

/-- The orchestrator's error taxonomy (spec §3/§7; TimeoutError is
timing-dependent and not part of this embedding). -/
inductive OrchError where
  | configurationError (msg : String)
  | fileAccessError
  | fileTooLarge
  | unsupportedFormat
  | extractionFailure (msg : String)
deriving DecidableEq

/-- Modelled from the spec: the Sync Orchestrator `extract(path,
rawConfig)` (`sync/extractor.py` is not part of the provided sources) —
validate configuration, check existence, check size against
`max_file_size_bytes`, resolve the handler, invoke it.  The second
component counts handler invocations. -/
def orchestrate {H : Type} (raw : List (String × OptValue))
    (reg : List (String × H)) (file : FileInfo)
    (run : H → Except String String) : Except OrchError String × Nat :=
  match validate raw with
  | Except.error e => (Except.error (OrchError.configurationError e.msg), 0)
  | Except.ok cfg =>
    if !file.present then (Except.error OrchError.fileAccessError, 0)
    else if (file.size : Int) > cfg.max_file_size_bytes then
      (Except.error OrchError.fileTooLarge, 0)
    else
      match lookup reg file.ext with
      | none => (Except.error OrchError.unsupportedFormat, 0)
      | some h =>
        match run h with
        | Except.ok t => (Except.ok t, 1)
        | Except.error m => (Except.error (OrchError.extractionFailure m), 1)

/-! ## Specification-side definitions used to state the claims -/

/-- Concatenation of a list of lists. -/
def concatAll {α : Type} (ls : List (List α)) : List α := ls.foldr (· ++ ·) []

/-- All raw text fragments `DOCXHandler.extract` reads from a document,
in traversal order: body paragraphs, table cell paragraphs (row-major),
section header and footer paragraphs, footnote paragraphs, endnote
paragraphs, text-box runs. -/
def rawFragments (doc : Document) : List String :=
  doc.paragraphs
    ++ concatAll (doc.tables.map (fun t => concatAll (t.map concatAll)))
    ++ concatAll (doc.sections.map (fun sec => sec.1.getD [] ++ sec.2.getD []))
    ++ concatAll (doc.footnotes.getD [])
    ++ concatAll (doc.endnotes.getD [])
    ++ doc.textboxes

/-- The effect of reading one raw fragment on `processed_text`. -/
def seenStep (seen : List String) (p : String) : List String :=
  let text := pyStrip p
  if text ≠ "" ∧ text ∉ seen then seen ++ [text] else seen

/-- One step of first-occurrence deduplication. -/
def dedupStep (acc : List String) (x : String) : List String :=
  if x ∈ acc then acc else acc ++ [x]

/-- First-occurrence deduplication of a list of strings. -/
def firstDedup (l : List String) : List String := l.foldl dedupStep []

/-- Every whitespace character of the list is a plain space. -/
def spaceOnly (cs : List Char) : Prop :=
  ∀ c ∈ cs, c.isWhitespace = true → c = ' '

/-- Adjacent-pair relation: not both characters are whitespace. -/
def noAdjWs (a b : Char) : Prop :=
  ¬(a.isWhitespace = true ∧ b.isWhitespace = true)

/-- Adjacent-pair relation: no whitespace directly before punctuation. -/
def noWsPunct (a b : Char) : Prop :=
  ¬(a.isWhitespace = true ∧ isPunct b = true)

end Textxtract

namespace Textxtract

/-! ## Theorems -/

/-- C2: every failure of `DOCXHandler.extract` is an `ExtractionError`
carrying a human-readable cause message of the form
`"DOCX extraction failed: <cause>"`; any internal exception raised while
loading or parsing the document is re-signaled in this form and no other
error kind ever escapes. -/
theorem extract_error_is_extraction_error :
    ∀ (load : Except PyError Document) (e : PyError),
      extract load = Except.error e →
      ∃ cause, e = PyError.extractionError ("DOCX extraction failed: " ++ cause) := by
  intro load e h
  cases load with
  | ok doc => simp [extract] at h
  | error e0 =>
    simp only [extract, Except.error.injEq] at h
    exact ⟨errMsg e0, h.symm⟩

/-- Witness for C2: a loading failure `"boom"` surfaces as the
`ExtractionError` with message `"DOCX extraction failed: boom"`. -/
theorem extract_error_is_extraction_error_witness :
    ∃ cause, PyError.extractionError "DOCX extraction failed: boom" =
      PyError.extractionError ("DOCX extraction failed: " ++ cause) :=
  extract_error_is_extraction_error
    (Except.error (PyError.otherError "boom"))
    (PyError.extractionError "DOCX extraction failed: boom") rfl

/-- C3: an exception raised inside one of the optional sub-extraction
blocks (footnotes/endnotes or text boxes) of a successfully loaded
document never fails the call — the result is exactly the extraction
with those exceptions absent, i.e. the best text available from the
elements processed so far; only a failure to load the document at all
surfaces, and then as an `ExtractionError`. -/
theorem extract_best_effort :
    (∀ doc : Document,
      extract (Except.ok doc) =
        Except.ok (extractDoc
          { doc with notesRaise := false, textboxesRaise := false })) ∧
    (∀ e : PyError, ∃ msg,
      extract (Except.error e) = Except.error (PyError.extractionError msg)) := by
  constructor
  · intro doc
    obtain ⟨ps, ts, ss, fn, en, nr, tb, tr⟩ := doc
    cases nr <;> cases tr <;> rfl
  · intro e
    exact ⟨"DOCX extraction failed: " ++ errMsg e, rfl⟩

/-- C4: `DOCXHandler.extract_async` produces exactly the same result as
the blocking `DOCXHandler.extract` on every input — identical text on
success and the same `ExtractionError` on failure — since it merely runs
the blocking form on a worker thread. -/
theorem extract_async_eq_extract :
    ∀ load : Except PyError Document, extract_async load = extract load :=
  fun _ => rfl

/-- C6: after `register(E, h1)` followed by `register(E, h2)`,
`lookup(E)` returns `h2`; every entry for the normalized extension is
`h2` (the second registration completely replaces the first); and
registration preserves the invariant that at most one handler per
normalized extension is present. -/
theorem register_replaces :
    (∀ (H : Type) (r : List (String × H)) (e : String) (h1 h2 : H),
      lookup (register (register r e h1) e h2) e = some h2) ∧
    (∀ (H : Type) (r : List (String × H)) (e : String) (h1 h2 h' : H),
      (normalizeExt e, h') ∈ register (register r e h1) e h2 → h' = h2) ∧
    (∀ (H : Type) (r : List (String × H)) (e : String) (h : H),
      (r.map Prod.fst).Nodup → ((register r e h).map Prod.fst).Nodup) := by
  refine ⟨?_, ?_, ?_⟩
  · intro H r e h1 h2
    simp [lookup, register, List.find?]
  · intro H r e h1 h2 h' hmem
    simp only [register, List.mem_cons, List.mem_filter, Prod.mk.injEq,
      decide_eq_true_eq] at hmem
    rcases hmem with ⟨-, rfl⟩ | ⟨-, hne⟩
    · rfl
    · exact absurd rfl hne
  · intro H r e h hnd
    simp only [register, List.map_cons, List.nodup_cons]
    constructor
    · intro hm
      obtain ⟨p, hp, hfst⟩ := List.mem_map.mp hm
      have := (List.mem_filter.mp hp).2
      simp only [decide_eq_true_eq] at this
      exact this hfst
    · exact hnd.sublist ((List.filter_sublist r).map Prod.fst)

/-- Witness for C6: registering `"TXT"` over a one-entry registry keeps
the normalized-extension keys duplicate-free. -/
theorem register_replaces_witness :
    ((register ([("pdf", 1)] : List (String × Nat)) "TXT" 2).map
      Prod.fst).Nodup :=
  register_replaces.2.2 Nat [("pdf", 1)] "TXT" 2 (by decide)

/-- C7: configuration validation fails with a `ConfigurationError` on a
non-positive `timeout_seconds`, on a negative `max_file_size_bytes`, and
on any unrecognized option key; and it happens at construction, before
any extraction work — an invalid raw option set makes the orchestrator
fail with the `ConfigurationError` while the handler receives zero
calls. -/
theorem validate_rejects_invalid :
    (∀ (raw : List (String × OptValue)) (n : Int),
      lookupOpt raw "timeout_seconds" = some (OptValue.num n) → n ≤ 0 →
      ∃ e, validate raw = Except.error e) ∧
    (∀ (raw : List (String × OptValue)) (n : Int),
      lookupOpt raw "max_file_size_bytes" = some (OptValue.num n) → n < 0 →
      ∃ e, validate raw = Except.error e) ∧
    (∀ (raw : List (String × OptValue)) (kv : String × OptValue),
      kv ∈ raw → kv.1 ∉ recognizedOptions →
      ∃ e, validate raw = Except.error e) ∧
    (∀ (H : Type) (raw : List (String × OptValue)) (reg : List (String × H))
      (file : FileInfo) (run : H → Except String String)
      (e : ConfigurationError),
      validate raw = Except.error e →
      orchestrate raw reg file run =
        (Except.error (OrchError.configurationError e.msg), 0)) := by
  refine ⟨?_, ?_, ?_, ?_⟩
  · intro raw n hl hn
    by_cases hany : raw.any (fun kv => decide (kv.1 ∉ recognizedOptions)) = true
    · exact ⟨⟨"unknown option key"⟩, by rw [validate, if_pos hany]⟩
    · refine ⟨⟨"timeout_seconds must be positive"⟩, ?_⟩
      rw [validate, if_neg hany]
      have hgt : getTimeout raw = Except.error ⟨"timeout_seconds must be positive"⟩ := by
        rw [getTimeout, hl]
        exact if_pos hn
      rw [hgt]
  · intro raw n hl hn
    by_cases hany : raw.any (fun kv => decide (kv.1 ∉ recognizedOptions)) = true
    · exact ⟨⟨"unknown option key"⟩, by rw [validate, if_pos hany]⟩
    · cases hgt : getTimeout raw with
      | error e =>
        exact ⟨e, by rw [validate, if_neg hany, hgt]⟩
      | ok t =>
        refine ⟨⟨"max_file_size_bytes must be non-negative"⟩, ?_⟩
        rw [validate, if_neg hany, hgt]
        have hgm : getMaxSize raw =
            Except.error ⟨"max_file_size_bytes must be non-negative"⟩ := by
          rw [getMaxSize, hl]
          exact if_pos hn
        rw [hgm]
  · intro raw kv hmem hkey
    refine ⟨⟨"unknown option key"⟩, ?_⟩
    have hany : raw.any (fun kv => decide (kv.1 ∉ recognizedOptions)) = true :=
      List.any_eq_true.mpr ⟨kv, hmem, by simpa using hkey⟩
    rw [validate, if_pos hany]
  · intro H raw reg file run e hv
    rw [orchestrate, hv]

/-- Witness for C7: a raw option set with `timeout_seconds = 0` fails
validation. -/
theorem validate_rejects_invalid_witness :
    ∃ e, validate [("timeout_seconds", OptValue.num 0)] = Except.error e :=
  validate_rejects_invalid.1 [("timeout_seconds", OptValue.num 0)] 0
    rfl (by decide)

/-- C8: when the target file exceeds the configured
`max_file_size_bytes`, orchestrated extraction fails with `FileTooLarge`
and the resolved handler receives zero calls. -/
theorem size_checked_before_handler :
    ∀ (H : Type) (raw : List (String × OptValue)) (reg : List (String × H))
      (file : FileInfo) (run : H → Except String String)
      (cfg : Configuration),
      validate raw = Except.ok cfg → file.present = true →
      (file.size : Int) > cfg.max_file_size_bytes →
      orchestrate raw reg file run = (Except.error OrchError.fileTooLarge, 0) := by
  intro H raw reg file run cfg hv hp hs
  simp [orchestrate, hv, hp, hs]

/-- Witness for C8: with the default 10 MiB cap, a file one byte over
the cap fails with `FileTooLarge` and zero handler calls. -/
theorem size_checked_before_handler_witness :
    orchestrate ([] : List (String × OptValue)) ([] : List (String × Unit))
      ⟨true, 10485761, "txt"⟩ (fun _ => Except.ok "") =
      (Except.error OrchError.fileTooLarge, 0) :=
  size_checked_before_handler Unit [] [] ⟨true, 10485761, "txt"⟩
    (fun _ => Except.ok "") ⟨10, 10485760, "utf-8", []⟩ rfl rfl (by decide)

/-! ### The `processed_text` set: projection lemmas for claim C1 -/

theorem procPara_snd (st : St) (p : String) :
    (procPara st p).2 = seenStep st.2 p := by
  simp only [procPara, seenStep]
  split <;> rfl

theorem procParas_snd (ps : List String) :
    ∀ st : St, (procParas st ps).2 = ps.foldl seenStep st.2 := by
  induction ps with
  | nil => intro st; rfl
  | cons p ps ih =>
    intro st
    show (procParas (procPara st p) ps).2 = _
    rw [ih, procPara_snd, List.foldl_cons]

theorem procCellPara_snd (acc : List String × List String) (p : String) :
    (procCellPara acc p).2 = seenStep acc.2 p := by
  simp only [procCellPara, seenStep]
  split <;> rfl

theorem foldl_procCellPara_snd (cell : List String) :
    ∀ acc : List String × List String,
      (cell.foldl procCellPara acc).2 = cell.foldl seenStep acc.2 := by
  induction cell with
  | nil => intro acc; rfl
  | cons p cell ih =>
    intro acc
    rw [List.foldl_cons, List.foldl_cons, ih, procCellPara_snd]

theorem procCell_snd (acc : List String × List String) (cell : List String) :
    (procCell acc cell).2 = cell.foldl seenStep acc.2 := by
  simp only [procCell]
  split <;> simp [foldl_procCellPara_snd]

theorem foldl_procCell_snd (row : List (List String)) :
    ∀ acc : List String × List String,
      (row.foldl procCell acc).2 =
        row.foldl (fun s cell => cell.foldl seenStep s) acc.2 := by
  induction row with
  | nil => intro acc; rfl
  | cons cell row ih =>
    intro acc
    rw [List.foldl_cons, List.foldl_cons, ih, procCell_snd]

theorem procRow_snd (acc : List String × List String)
    (row : List (List String)) :
    (procRow acc row).2 =
      row.foldl (fun s cell => cell.foldl seenStep s) acc.2 := by
  simp only [procRow]
  split <;> simp [foldl_procCell_snd]

theorem foldl_procRow_snd (table : List (List (List String))) :
    ∀ acc : List String × List String,
      (table.foldl procRow acc).2 =
        table.foldl
          (fun s row => row.foldl (fun s cell => cell.foldl seenStep s) s)
          acc.2 := by
  induction table with
  | nil => intro acc; rfl
  | cons row table ih =>
    intro acc
    rw [List.foldl_cons, List.foldl_cons, ih, procRow_snd]

theorem procTable_snd (st : St) (table : List (List (List String))) :
    (procTable st table).2 =
      table.foldl
        (fun s row => row.foldl (fun s cell => cell.foldl seenStep s) s)
        st.2 := by
  simp only [procTable]
  rw [foldl_procRow_snd]

theorem foldl_procTable_snd (tables : List (List (List (List String)))) :
    ∀ st : St,
      (tables.foldl procTable st).2 =
        tables.foldl
          (fun s t =>
            t.foldl
              (fun s row => row.foldl (fun s cell => cell.foldl seenStep s) s)
              s)
          st.2 := by
  induction tables with
  | nil => intro st; rfl
  | cons t tables ih =>
    intro st
    rw [List.foldl_cons, List.foldl_cons, ih, procTable_snd]

theorem procSection_snd (st : St)
    (sec : Option (List String) × Option (List String)) :
    (procSection st sec).2 =
      (sec.1.getD [] ++ sec.2.getD []).foldl seenStep st.2 := by
  obtain ⟨h, f⟩ := sec
  cases h <;> cases f <;>
    simp [procSection, procParas_snd, List.foldl_append]

theorem foldl_procSection_snd
    (secs : List (Option (List String) × Option (List String))) :
    ∀ st : St,
      (secs.foldl procSection st).2 =
        secs.foldl
          (fun s sec => (sec.1.getD [] ++ sec.2.getD []).foldl seenStep s)
          st.2 := by
  induction secs with
  | nil => intro st; rfl
  | cons sec secs ih =>
    intro st
    rw [List.foldl_cons, List.foldl_cons, ih, procSection_snd]

theorem procNote_snd (label : String) (st : St) (p : String) :
    (procNote label st p).2 = seenStep st.2 p := by
  simp only [procNote, seenStep]
  split <;> rfl

theorem foldl_procNote_snd (label : String) (ps : List String) :
    ∀ st : St, (ps.foldl (procNote label) st).2 = ps.foldl seenStep st.2 := by
  induction ps with
  | nil => intro st; rfl
  | cons p ps ih =>
    intro st
    rw [List.foldl_cons, List.foldl_cons, ih, procNote_snd]

theorem procNotes_snd (label : String) (notes : List (List String)) :
    ∀ st : St,
      (procNotes label st notes).2 =
        notes.foldl (fun s n => n.foldl seenStep s) st.2 := by
  induction notes with
  | nil => intro st; rfl
  | cons n notes ih =>
    intro st
    show (procNotes label (n.foldl (procNote label) st) notes).2 = _
    rw [ih, foldl_procNote_snd, List.foldl_cons]

theorem foldl_concatAll {α β : Type} (f : β → α → β) (ls : List (List α)) :
    ∀ b : β, (concatAll ls).foldl f b = ls.foldl (fun s l => l.foldl f s) b := by
  induction ls with
  | nil => intro b; rfl
  | cons l ls ih =>
    intro b
    show (l ++ concatAll ls).foldl f b = _
    rw [List.foldl_append, ih, List.foldl_cons]

theorem recover_notes_snd (doc : Document) (st : St) :
    (recover (notesStepRaw doc st)).2 =
      (concatAll (doc.footnotes.getD []) ++
        concatAll (doc.endnotes.getD [])).foldl seenStep st.2 := by
  simp only [notesStepRaw]
  cases doc.notesRaise <;>
    cases hf : doc.footnotes <;> cases he : doc.endnotes <;>
      simp [recover, procNotes_snd, foldl_concatAll, List.foldl_append]

theorem recover_textboxes_snd (doc : Document) (st : St) :
    (recover (textboxStepRaw doc st)).2 = doc.textboxes.foldl seenStep st.2 := by
  simp only [textboxStepRaw]
  cases doc.textboxesRaise <;> simp [recover, foldl_procNote_snd]

theorem collect_snd (doc : Document) :
    (collect doc).2 = (rawFragments doc).foldl seenStep [] := by
  rw [collect, recover_textboxes_snd, recover_notes_snd, foldl_procSection_snd,
    foldl_procTable_snd, procParas_snd, rawFragments]
  simp only [List.foldl_append, foldl_concatAll, List.foldl_map]

theorem foldl_seenStep_eq_dedup (raw : List String) :
    ∀ s : List String,
      raw.foldl seenStep s =
        ((raw.map pyStrip).filter (fun x => x ≠ "")).foldl dedupStep s := by
  induction raw with
  | nil => intro s; rfl
  | cons p raw ih =>
    intro s
    rw [List.foldl_cons, List.map_cons]
    by_cases hp : pyStrip p = ""
    · have hstep : seenStep s p = s := by
        simp [seenStep, hp]
      have hfilter :
          ((pyStrip p :: raw.map pyStrip).filter (fun x => x ≠ "")) =
            (raw.map pyStrip).filter (fun x => x ≠ "") := by
        simp [List.filter_cons, hp]
      rw [hstep, hfilter, ih]
    · have hfilter :
          ((pyStrip p :: raw.map pyStrip).filter (fun x => x ≠ "")) =
            pyStrip p :: (raw.map pyStrip).filter (fun x => x ≠ "") := by
        simp [List.filter_cons, hp]
      have hstep : seenStep s p = dedupStep s (pyStrip p) := by
        by_cases hm : pyStrip p ∈ s
        · simp [seenStep, dedupStep, hp, hm]
        · simp [seenStep, dedupStep, hp, hm]
      rw [hfilter, List.foldl_cons, hstep, ih]

theorem foldl_dedupStep_nodup (l : List String) :
    ∀ acc : List String, acc.Nodup → (l.foldl dedupStep acc).Nodup := by
  induction l with
  | nil => intro acc h; exact h
  | cons x l ih =>
    intro acc h
    rw [List.foldl_cons]
    refine ih _ ?_
    by_cases hm : x ∈ acc
    · simpa [dedupStep, hm] using h
    · simp only [dedupStep, hm, if_false]
      simp [List.nodup_append, h, hm]

/-- C1: during one call to `DOCXHandler.extract`, the `processed_text`
set ends up being exactly the first-occurrence deduplication of all
non-empty stripped fragments of the document, taken globally across all
element kinds in traversal order, and it contains no duplicates; and a
fragment whose stripped text was already seen is skipped with no effect
on the state, in each element kind (plain paragraph, table cell
paragraph, labelled footnote/endnote/text-box fragment). -/
theorem extract_dedup_global :
    (∀ doc : Document,
      (collect doc).2 =
        firstDedup (((rawFragments doc).map pyStrip).filter (fun x => x ≠ "")) ∧
      ((collect doc).2).Nodup) ∧
    (∀ (st : St) (p : String), pyStrip p ∈ st.2 → procPara st p = st) ∧
    (∀ (acc : List String × List String) (p : String),
      pyStrip p ∈ acc.2 → procCellPara acc p = acc) ∧
    (∀ (label : String) (st : St) (p : String),
      pyStrip p ∈ st.2 → procNote label st p = st) := by
  refine ⟨?_, ?_, ?_, ?_⟩
  · intro doc
    have heq : (collect doc).2 =
        firstDedup (((rawFragments doc).map pyStrip).filter (fun x => x ≠ "")) := by
      rw [collect_snd, foldl_seenStep_eq_dedup, firstDedup]
    refine ⟨heq, ?_⟩
    rw [heq, firstDedup]
    exact foldl_dedupStep_nodup _ [] List.nodup_nil
  · intro st p hmem
    simp only [procPara]
    rw [if_neg]
    exact fun h => h.2 hmem
  · intro acc p hmem
    simp only [procCellPara]
    rw [if_neg]
    exact fun h => h.2 hmem
  · intro label st p hmem
    simp only [procNote]
    rw [if_neg]
    exact fun h => h.2 hmem

/-- Witness for C1: a paragraph whose stripped text was already
processed leaves the state unchanged. -/
theorem extract_dedup_global_witness :
    procPara (["hi"], ["hi"]) " hi " = (["hi"], ["hi"]) :=
  extract_dedup_global.2.1 (["hi"], ["hi"]) " hi " (by decide)

/-! ### Documents with no non-empty fragment: lemmas for claim C5 -/

theorem mem_concatAll {α : Type} {a : α} {l : List α} {ls : List (List α)}
    (hl : l ∈ ls) (ha : a ∈ l) : a ∈ concatAll ls := by
  induction ls with
  | nil => cases hl
  | cons l0 ls ih =>
    show a ∈ l0 ++ concatAll ls
    rcases List.mem_cons.mp hl with rfl | hl'
    · exact List.mem_append_left _ ha
    · exact List.mem_append_right _ (ih hl')

theorem procPara_id {st : St} {p : String} (hp : pyStrip p = "") :
    procPara st p = st := by
  simp [procPara, hp]

theorem procParas_id {ps : List String} (h : ∀ p ∈ ps, pyStrip p = "") :
    ∀ st : St, procParas st ps = st := by
  induction ps with
  | nil => intro st; rfl
  | cons p ps ih =>
    intro st
    show procParas (procPara st p) ps = st
    rw [procPara_id (h p (List.mem_cons_self p ps))]
    exact ih (fun q hq => h q (List.mem_cons_of_mem p hq)) st

theorem procCellPara_id {acc : List String × List String} {p : String}
    (hp : pyStrip p = "") : procCellPara acc p = acc := by
  simp [procCellPara, hp]

theorem foldl_procCellPara_id {cell : List String}
    (h : ∀ p ∈ cell, pyStrip p = "") :
    ∀ acc : List String × List String, cell.foldl procCellPara acc = acc := by
  induction cell with
  | nil => intro acc; rfl
  | cons p cell ih =>
    intro acc
    rw [List.foldl_cons, procCellPara_id (h p (List.mem_cons_self p cell))]
    exact ih (fun q hq => h q (List.mem_cons_of_mem p hq)) acc

theorem procCell_id {cell : List String} (h : ∀ p ∈ cell, pyStrip p = "")
    (acc : List String × List String) : procCell acc cell = acc := by
  simp only [procCell, foldl_procCellPara_id h]
  simp

theorem foldl_procCell_id {row : List (List String)}
    (h : ∀ cell ∈ row, ∀ p ∈ cell, pyStrip p = "") :
    ∀ acc : List String × List String, row.foldl procCell acc = acc := by
  induction row with
  | nil => intro acc; rfl
  | cons cell row ih =>
    intro acc
    rw [List.foldl_cons, procCell_id (h cell (List.mem_cons_self cell row))]
    exact ih (fun c hc => h c (List.mem_cons_of_mem cell hc)) acc

theorem procRow_id {row : List (List String)}
    (h : ∀ cell ∈ row, ∀ p ∈ cell, pyStrip p = "")
    (acc : List String × List String) : procRow acc row = acc := by
  simp only [procRow, foldl_procCell_id h]
  simp

theorem foldl_procRow_id' {row : List (List (List String))}
    (h : ∀ r ∈ row, ∀ cell ∈ r, ∀ p ∈ cell, pyStrip p = "") :
    ∀ acc : List String × List String, row.foldl procRow acc = acc := by
  induction row with
  | nil => intro acc; rfl
  | cons r row ih =>
    intro acc
    rw [List.foldl_cons, procRow_id (h r (List.mem_cons_self r row))]
    exact ih (fun u hu => h u (List.mem_cons_of_mem r hu)) acc

theorem procTable_id {table : List (List (List String))}
    (h : ∀ row ∈ table, ∀ cell ∈ row, ∀ p ∈ cell, pyStrip p = "")
    (st : St) : procTable st table = st := by
  show (st.1 ++ (table.foldl procRow ([], st.2)).1,
    (table.foldl procRow ([], st.2)).2) = st
  rw [foldl_procRow_id' h]
  simp

theorem foldl_procTable_id {tables : List (List (List (List String)))}
    (h : ∀ t ∈ tables, ∀ row ∈ t, ∀ cell ∈ row, ∀ p ∈ cell, pyStrip p = "") :
    ∀ st : St, tables.foldl procTable st = st := by
  induction tables with
  | nil => intro st; rfl
  | cons t tables ih =>
    intro st
    rw [List.foldl_cons, procTable_id (h t (List.mem_cons_self t tables))]
    exact ih (fun u hu => h u (List.mem_cons_of_mem t hu)) st

theorem procSection_id {sec : Option (List String) × Option (List String)}
    (h : ∀ p ∈ sec.1.getD [] ++ sec.2.getD [], pyStrip p = "")
    (st : St) : procSection st sec = st := by
  obtain ⟨hd, ft⟩ := sec
  cases hd <;> cases ft <;>
    simp_all [procSection, procParas_id]

theorem foldl_procSection_id
    {secs : List (Option (List String) × Option (List String))}
    (h : ∀ sec ∈ secs, ∀ p ∈ sec.1.getD [] ++ sec.2.getD [], pyStrip p = "") :
    ∀ st : St, secs.foldl procSection st = st := by
  induction secs with
  | nil => intro st; rfl
  | cons sec secs ih =>
    intro st
    rw [List.foldl_cons, procSection_id (h sec (List.mem_cons_self sec secs))]
    exact ih (fun s hs => h s (List.mem_cons_of_mem sec hs)) st

theorem procNote_id {label : String} {st : St} {p : String}
    (hp : pyStrip p = "") : procNote label st p = st := by
  simp [procNote, hp]

theorem foldl_procNote_id {label : String} {ps : List String}
    (h : ∀ p ∈ ps, pyStrip p = "") :
    ∀ st : St, ps.foldl (procNote label) st = st := by
  induction ps with
  | nil => intro st; rfl
  | cons p ps ih =>
    intro st
    rw [List.foldl_cons, procNote_id (h p (List.mem_cons_self p ps))]
    exact ih (fun q hq => h q (List.mem_cons_of_mem p hq)) st

theorem procNotes_id {label : String} {notes : List (List String)}
    (h : ∀ n ∈ notes, ∀ p ∈ n, pyStrip p = "") :
    ∀ st : St, procNotes label st notes = st := by
  induction notes with
  | nil => intro st; rfl
  | cons n notes ih =>
    intro st
    show procNotes label (n.foldl (procNote label) st) notes = st
    rw [foldl_procNote_id (h n (List.mem_cons_self n notes))]
    exact ih (fun m hm => h m (List.mem_cons_of_mem n hm)) st

theorem collect_of_all_empty {doc : Document}
    (h : ∀ p ∈ rawFragments doc, pyStrip p = "") : collect doc = ([], []) := by
  have hpara : ∀ p ∈ doc.paragraphs, pyStrip p = "" := by
    intro p hp
    exact h p (by
      rw [rawFragments]
      exact List.mem_append_left _ (List.mem_append_left _
        (List.mem_append_left _ (List.mem_append_left _
          (List.mem_append_left _ hp)))))
  have htab : ∀ t ∈ doc.tables, ∀ row ∈ t, ∀ cell ∈ row, ∀ p ∈ cell,
      pyStrip p = "" := by
    intro t ht row hrow cell hcell p hp
    refine h p ?_
    rw [rawFragments]
    refine List.mem_append_left _ (List.mem_append_left _
      (List.mem_append_left _ (List.mem_append_left _
        (List.mem_append_right _ ?_))))
    exact mem_concatAll (List.mem_map_of_mem _ ht)
      (mem_concatAll (List.mem_map_of_mem _ hrow) (mem_concatAll hcell hp))
  have hsec : ∀ sec ∈ doc.sections, ∀ p ∈ sec.1.getD [] ++ sec.2.getD [],
      pyStrip p = "" := by
    intro sec hsec p hp
    refine h p ?_
    rw [rawFragments]
    refine List.mem_append_left _ (List.mem_append_left _
      (List.mem_append_left _ (List.mem_append_right _ ?_)))
    exact mem_concatAll (List.mem_map_of_mem _ hsec) hp
  have hfn : ∀ n ∈ doc.footnotes.getD [], ∀ p ∈ n, pyStrip p = "" := by
    intro n hn p hp
    refine h p ?_
    rw [rawFragments]
    exact List.mem_append_left _ (List.mem_append_left _
      (List.mem_append_right _ (mem_concatAll hn hp)))
  have hen : ∀ n ∈ doc.endnotes.getD [], ∀ p ∈ n, pyStrip p = "" := by
    intro n hn p hp
    refine h p ?_
    rw [rawFragments]
    exact List.mem_append_left _
      (List.mem_append_right _ (mem_concatAll hn hp))
  have htb : ∀ p ∈ doc.textboxes, pyStrip p = "" := by
    intro p hp
    refine h p ?_
    rw [rawFragments]
    exact List.mem_append_right _ hp
  rw [collect]
  rw [procParas_id hpara, foldl_procTable_id htab, foldl_procSection_id hsec]
  have hnotes : recover (notesStepRaw doc ([], [])) = ([], []) := by
    simp only [notesStepRaw]
    have h1 : (match doc.footnotes with
        | some f => procNotes "Footnote" (([], []) : St) f
        | none => (([], []) : St)) = ([], []) := by
      cases hf : doc.footnotes with
      | none => rfl
      | some f =>
        exact procNotes_id (by simpa [hf] using hfn) _
    rw [h1]
    have h2 : (match doc.endnotes with
        | some e => procNotes "Endnote" (([], []) : St) e
        | none => (([], []) : St)) = ([], []) := by
      cases he : doc.endnotes with
      | none => rfl
      | some e =>
        exact procNotes_id (by simpa [he] using hen) _
    rw [h2]
    cases doc.notesRaise <;> rfl
  rw [hnotes]
  simp only [textboxStepRaw]
  rw [foldl_procNote_id htb]
  cases doc.textboxesRaise <;> rfl

/-- C5: a successful extraction may be empty — on every document in
which no fragment strips to non-empty text, `DOCXHandler.extract`
succeeds and returns the empty string rather than failing. -/
theorem extract_empty_document :
    ∀ doc : Document, (∀ p ∈ rawFragments doc, pyStrip p = "") →
      extract (Except.ok doc) = Except.ok "" := by
  intro doc h
  rw [extract, extractDoc, collect_of_all_empty h]
  rfl

/-- Witness for C5: a document whose only fragments are whitespace
extracts to the empty string. -/
theorem extract_empty_document_witness :
    extract (Except.ok ⟨["  ", "\t"], [[[[" "]]]], [(some [" "], none)],
      some [["\t "]], none, false, ["  "], false⟩) = Except.ok "" :=
  extract_empty_document
    ⟨["  ", "\t"], [[[[" "]]]], [(some [" "], none)],
      some [["\t "]], none, false, ["  "], false⟩ (by decide)

/-! ### Stripping: lemmas for claims C9 and C10 -/

theorem dropWhile_dropWhile (p : Char → Bool) (cs : List Char) :
    (cs.dropWhile p).dropWhile p = cs.dropWhile p := by
  induction cs with
  | nil => rfl
  | cons a cs ih =>
    rw [List.dropWhile_cons]
    by_cases ha : p a = true
    · rw [if_pos ha]; exact ih
    · rw [if_neg ha, List.dropWhile_cons, if_neg ha]

theorem head_dropWhile_false (p : Char → Bool) (cs : List Char) {c : Char}
    {cs' : List Char} (h : cs.dropWhile p = c :: cs') : p c = false := by
  induction cs with
  | nil => exact absurd h (by simp)
  | cons a cs ih =>
    rw [List.dropWhile_cons] at h
    by_cases ha : p a = true
    · rw [if_pos ha] at h; exact ih h
    · rw [if_neg ha] at h
      cases h
      exact Bool.not_eq_true _ ▸ (by simpa using ha)

theorem stripChars_head_not_ws (cs : List Char) (c : Char) (cs' : List Char)
    (h : stripChars cs = c :: cs') : Char.isWhitespace c = false := by
  have hB : (cs.dropWhile Char.isWhitespace).reverse.dropWhile Char.isWhitespace
      = (c :: cs').reverse := by
    have h2 := congrArg List.reverse h
    rwa [stripChars, List.reverse_reverse] at h2
  obtain ⟨T, hA⟩ : ∃ T, cs.dropWhile Char.isWhitespace = (c :: cs') ++ T := by
    refine ⟨((cs.dropWhile Char.isWhitespace).reverse.takeWhile
      Char.isWhitespace).reverse, ?_⟩
    have h2 : (cs.dropWhile Char.isWhitespace).reverse.takeWhile Char.isWhitespace
        ++ (cs.dropWhile Char.isWhitespace).reverse.dropWhile Char.isWhitespace
        = (cs.dropWhile Char.isWhitespace).reverse :=
      List.takeWhile_append_dropWhile Char.isWhitespace _
    have h3 := congrArg List.reverse h2
    rw [List.reverse_append, hB, List.reverse_reverse, List.reverse_reverse] at h3
    exact h3.symm
  have h4 : cs.dropWhile Char.isWhitespace = c :: (cs' ++ T) := by
    rw [hA]; rfl
  exact head_dropWhile_false _ _ h4

theorem stripChars_idem (cs : List Char) :
    stripChars (stripChars cs) = stripChars cs := by
  have h1 : (stripChars cs).dropWhile Char.isWhitespace = stripChars cs := by
    cases hS : stripChars cs with
    | nil => rfl
    | cons c S' =>
      have hc := stripChars_head_not_ws cs c S' hS
      rw [List.dropWhile_cons, hc]
      simp
  have h2 : (stripChars cs).reverse.dropWhile Char.isWhitespace
      = (stripChars cs).reverse := by
    show (((cs.dropWhile Char.isWhitespace).reverse.dropWhile
      Char.isWhitespace).reverse.reverse).dropWhile Char.isWhitespace = _
    rw [List.reverse_reverse, dropWhile_dropWhile, stripChars,
      List.reverse_reverse]
  show (((stripChars cs).dropWhile
    Char.isWhitespace).reverse.dropWhile Char.isWhitespace).reverse
    = stripChars cs
  rw [h1, h2, List.reverse_reverse]

theorem collapseWs_all_ws : ∀ cs : List Char, cs ≠ [] →
    (∀ c ∈ cs, c.isWhitespace = true) → collapseWs cs = [' ']
  | [], hne, _ => absurd rfl hne
  | [c], _, h => by
    simp only [collapseWs]
    rw [if_pos (h c (List.mem_cons_self c []))]
  | c :: d :: cs, _, h => by
    simp only [collapseWs]
    rw [if_pos (h c (List.mem_cons_self c (d :: cs))),
      if_pos (h d (List.mem_cons_of_mem c (List.mem_cons_self d cs)))]
    exact collapseWs_all_ws (d :: cs) (by simp)
      (fun x hx => h x (List.mem_cons_of_mem c hx))

/-- C9: `_clean_text` always returns a stripped string — no leading or
trailing whitespace survives; the empty string maps to itself, and every
whitespace-only string maps to the empty string. -/
theorem clean_text_stripped :
    (∀ s : String, pyStrip (clean_text s) = clean_text s) ∧
    clean_text "" = "" ∧
    (∀ s : String, (∀ c ∈ s.data, c.isWhitespace = true) → clean_text s = "") := by
  refine ⟨?_, rfl, ?_⟩
  · intro s
    by_cases hs : s = ""
    · rw [hs]; rfl
    · rw [clean_text, if_neg hs]
      show (⟨stripChars (stripChars
        (fixPunct (collapseDots (collapseWs s.data))))⟩ : String) = _
      rw [stripChars_idem]
  · intro s hws
    by_cases hs : s = ""
    · rw [hs]; rfl
    · rw [clean_text, if_neg hs]
      have hne : s.data ≠ [] := by
        intro h
        apply hs
        have h2 : s = ⟨s.data⟩ := rfl
        rw [h2, h]
      rw [collapseWs_all_ws s.data hne hws]
      rfl

/-- Witness for C9: the whitespace-only string `" \t "` cleans to the
empty string. -/
theorem clean_text_stripped_witness : clean_text " \t " = "" :=
  clean_text_stripped.2.2 " \t " (by decide)

/-! ### Idempotence of `_clean_text`: lemmas for claim C10 -/

theorem ws_not_punct {c : Char} (h : c.isWhitespace = true) :
    isPunct c = false := by
  simp only [Char.isWhitespace, Bool.or_eq_true, decide_eq_true_eq] at h
  rcases h with ((rfl | rfl) | rfl) | rfl <;> rfl

theorem mem_collapseWs : ∀ (cs : List Char) (x : Char), x ∈ collapseWs cs →
    (x ∈ cs ∧ x.isWhitespace = false) ∨ x = ' '
  | [], x, h => absurd h (by simp [collapseWs])
  | [c], x, h => by
    simp only [collapseWs] at h
    by_cases hc : c.isWhitespace = true
    · rw [if_pos hc] at h
      exact Or.inr (by simpa using h)
    · rw [if_neg hc] at h
      have hx : x = c := by simpa using h
      subst hx
      exact Or.inl ⟨List.mem_cons_self _ _, by simpa using hc⟩
  | c :: d :: cs, x, h => by
    simp only [collapseWs] at h
    by_cases hc : c.isWhitespace = true
    · rw [if_pos hc] at h
      by_cases hd : d.isWhitespace = true
      · rw [if_pos hd] at h
        rcases mem_collapseWs (d :: cs) x h with ⟨hm, hws⟩ | hsp
        · exact Or.inl ⟨List.mem_cons_of_mem c hm, hws⟩
        · exact Or.inr hsp
      · rw [if_neg hd] at h
        rcases List.mem_cons.mp h with rfl | h'
        · exact Or.inr rfl
        · rcases mem_collapseWs (d :: cs) x h' with ⟨hm, hws⟩ | hsp
          · exact Or.inl ⟨List.mem_cons_of_mem c hm, hws⟩
          · exact Or.inr hsp
    · rw [if_neg hc] at h
      rcases List.mem_cons.mp h with rfl | h'
      · exact Or.inl ⟨List.mem_cons_self _ _, by simpa using hc⟩
      · rcases mem_collapseWs (d :: cs) x h' with ⟨hm, hws⟩ | hsp
        · exact Or.inl ⟨List.mem_cons_of_mem c hm, hws⟩
        · exact Or.inr hsp

theorem collapseWs_spaceOnly (cs : List Char) : spaceOnly (collapseWs cs) := by
  intro x hx hws
  rcases mem_collapseWs cs x hx with ⟨_, hf⟩ | hsp
  · rw [hws] at hf; cases hf
  · exact hsp

theorem collapseWs_head? : ∀ (c : Char) (cs : List Char),
    (collapseWs (c :: cs)).head? = some (if c.isWhitespace then ' ' else c)
  | c, [] => by
    simp only [collapseWs]
    by_cases hc : c.isWhitespace = true
    · rw [if_pos hc, if_pos hc]; rfl
    · rw [if_neg hc, if_neg hc]; rfl
  | c, d :: cs => by
    simp only [collapseWs]
    by_cases hc : c.isWhitespace = true
    · rw [if_pos hc, if_pos hc]
      by_cases hd : d.isWhitespace = true
      · rw [if_pos hd, collapseWs_head? d cs, if_pos hd]
      · rw [if_neg hd]; rfl
    · rw [if_neg hc, if_neg hc]; rfl

theorem collapseWs_chain : ∀ cs : List Char,
    List.Chain' noAdjWs (collapseWs cs)
  | [] => by simp [collapseWs]
  | [c] => by
    simp only [collapseWs]
    split <;> exact List.chain'_singleton _
  | c :: d :: cs => by
    simp only [collapseWs]
    by_cases hc : c.isWhitespace = true
    · rw [if_pos hc]
      by_cases hd : d.isWhitespace = true
      · rw [if_pos hd]
        exact collapseWs_chain (d :: cs)
      · rw [if_neg hd]
        refine List.chain'_cons'.mpr ⟨?_, collapseWs_chain (d :: cs)⟩
        intro y hy
        rw [collapseWs_head? d cs, if_neg hd] at hy
        have hyd : d = y := by simpa using hy
        subst hyd
        exact fun hand => hd hand.2
    · rw [if_neg hc]
      refine List.chain'_cons'.mpr ⟨?_, collapseWs_chain (d :: cs)⟩
      intro y hy
      exact fun hand => hc hand.1

theorem collapseWs_id : ∀ cs : List Char, spaceOnly cs →
    List.Chain' noAdjWs cs → collapseWs cs = cs
  | [], _, _ => rfl
  | [c], hso, _ => by
    simp only [collapseWs]
    by_cases hc : c.isWhitespace = true
    · rw [if_pos hc, hso c (List.mem_cons_self c []) hc]
    · rw [if_neg hc]
  | c :: d :: cs, hso, hch => by
    simp only [collapseWs]
    have htl : List.Chain' noAdjWs (d :: cs) := (List.chain'_cons.mp hch).2
    have hso' : spaceOnly (d :: cs) :=
      fun x hx => hso x (List.mem_cons_of_mem c hx)
    by_cases hc : c.isWhitespace = true
    · by_cases hd : d.isWhitespace = true
      · exact absurd ⟨hc, hd⟩ (List.chain'_cons.mp hch).1
      · rw [if_pos hc, if_neg hd, collapseWs_id (d :: cs) hso' htl,
          hso c (List.mem_cons_self _ _) hc]
    · rw [if_neg hc, collapseWs_id (d :: cs) hso' htl]

theorem collapseDots_id : ∀ cs : List Char, '.' ∉ cs →
    collapseDotsAux 0 cs = cs
  | [], _ => rfl
  | c :: cs, h => by
    have hc : ¬(c = '.') := fun hc => h (hc ▸ List.mem_cons_self c cs)
    simp only [collapseDotsAux, if_neg hc]
    simp [collapseDots_id cs (fun hm => h (List.mem_cons_of_mem c hm))]

theorem mem_fixPunctAux : ∀ (pend l : List Char) (x : Char),
    x ∈ fixPunctAux pend l → x ∈ pend ∨ x ∈ l
  | pend, [], x, h => Or.inl (by simpa [fixPunctAux] using h)
  | pend, c :: cs, x, h => by
    simp only [fixPunctAux] at h
    by_cases hws : c.isWhitespace = true
    · rw [if_pos hws] at h
      rcases mem_fixPunctAux (pend ++ [c]) cs x h with hp | hl
      · rcases List.mem_append.mp hp with h1 | h2
        · exact Or.inl h1
        · have hx : x = c := by simpa using h2
          exact Or.inr (hx ▸ List.mem_cons_self c cs)
      · exact Or.inr (List.mem_cons_of_mem c hl)
    · rw [if_neg hws] at h
      by_cases hpc : isPunct c = true ∧ pend ≠ []
      · rw [if_pos hpc] at h
        rcases List.mem_cons.mp h with rfl | h'
        · exact Or.inr (List.mem_cons_self _ _)
        · rcases mem_fixPunctAux [] cs x h' with hp | hl
          · exact absurd hp (List.not_mem_nil x)
          · exact Or.inr (List.mem_cons_of_mem c hl)
      · rw [if_neg hpc] at h
        rcases List.mem_append.mp h with hp | h'
        · exact Or.inl hp
        · rcases List.mem_cons.mp h' with rfl | h''
          · exact Or.inr (List.mem_cons_self _ _)
          · rcases mem_fixPunctAux [] cs x h'' with hp | hl
            · exact absurd hp (List.not_mem_nil x)
            · exact Or.inr (List.mem_cons_of_mem c hl)

theorem chain'_noWsPunct_of_all_ws : ∀ pend : List Char,
    (∀ x ∈ pend, x.isWhitespace = true) → List.Chain' noWsPunct pend
  | [], _ => List.chain'_nil
  | [a], _ => List.chain'_singleton a
  | a :: b :: l, h => by
    refine List.chain'_cons.mpr ⟨?_, chain'_noWsPunct_of_all_ws (b :: l)
      (fun x hx => h x (List.mem_cons_of_mem a hx))⟩
    intro hand
    have hb := h b (List.mem_cons_of_mem a (List.mem_cons_self b l))
    rw [ws_not_punct hb] at hand
    cases hand.2

theorem fixPunct_chain_punct : ∀ (pend l : List Char),
    (∀ x ∈ pend, x.isWhitespace = true) →
    List.Chain' noWsPunct (fixPunctAux pend l)
  | pend, [], h => by
    simpa [fixPunctAux] using chain'_noWsPunct_of_all_ws pend h
  | pend, c :: cs, h => by
    simp only [fixPunctAux]
    by_cases hws : c.isWhitespace = true
    · rw [if_pos hws]
      refine fixPunct_chain_punct (pend ++ [c]) cs ?_
      intro x hx
      rcases List.mem_append.mp hx with h1 | h2
      · exact h x h1
      · have hx2 : x = c := by simpa using h2
        exact hx2 ▸ hws
    · rw [if_neg hws]
      by_cases hpc : isPunct c = true ∧ pend ≠ []
      · rw [if_pos hpc]
        refine List.chain'_cons'.mpr ⟨?_, fixPunct_chain_punct [] cs (by simp)⟩
        intro y hy hand
        exact (by simpa using hws : ¬c.isWhitespace = true) hand.1
      · rw [if_neg hpc]
        refine List.chain'_append.mpr
          ⟨chain'_noWsPunct_of_all_ws pend h, ?_, ?_⟩
        · refine List.chain'_cons'.mpr ⟨?_, fixPunct_chain_punct [] cs (by simp)⟩
          intro y hy hand
          exact (by simpa using hws : ¬c.isWhitespace = true) hand.1
        · intro x hx y hy hand
          cases hpend : pend with
          | nil =>
            rw [hpend] at hx
            simp at hx
          | cons a as =>
            have hyc : c = y := by
              have h0 : (c :: fixPunctAux [] cs).head? = some c := rfl
              rw [h0] at hy
              simpa using hy
            subst hyc
            exact (fun hp => hpc ⟨hp, by rw [hpend]; simp⟩) hand.2

theorem fixPunct_chain_ws : ∀ (pend l : List Char),
    List.Chain' noAdjWs (pend ++ l) →
    List.Chain' noAdjWs (fixPunctAux pend l)
  | pend, [], h => by simpa [fixPunctAux] using h
  | pend, c :: cs, h => by
    simp only [fixPunctAux]
    obtain ⟨hp, hccs, hlh⟩ := List.chain'_append.mp h
    have hcs := (List.chain'_cons'.mp hccs).2
    by_cases hws : c.isWhitespace = true
    · rw [if_pos hws]
      refine fixPunct_chain_ws (pend ++ [c]) cs ?_
      rw [List.append_assoc]
      simpa using h
    · rw [if_neg hws]
      by_cases hpc : isPunct c = true ∧ pend ≠ []
      · rw [if_pos hpc]
        refine List.chain'_cons'.mpr
          ⟨?_, fixPunct_chain_ws [] cs (by simpa using hcs)⟩
        intro y hy hand
        exact (by simpa using hws : ¬c.isWhitespace = true) hand.1
      · rw [if_neg hpc]
        refine List.chain'_append.mpr ⟨hp, ?_, ?_⟩
        · refine List.chain'_cons'.mpr
            ⟨?_, fixPunct_chain_ws [] cs (by simpa using hcs)⟩
          intro y hy hand
          exact (by simpa using hws : ¬c.isWhitespace = true) hand.1
        · intro x hx y hy
          have hyc : c = y := by
            have h0 : (c :: fixPunctAux [] cs).head? = some c := rfl
            rw [h0] at hy
            simpa using hy
          subst hyc
          exact hlh x hx c (by simp)

theorem fixPunct_id : ∀ (pend l : List Char),
    (∀ x ∈ pend, x.isWhitespace = true) →
    List.Chain' noWsPunct (pend ++ l) → fixPunctAux pend l = pend ++ l
  | pend, [], _, _ => by simp [fixPunctAux]
  | pend, c :: cs, hws, h => by
    simp only [fixPunctAux]
    obtain ⟨hp, hccs, hlh⟩ := List.chain'_append.mp h
    have hcs := (List.chain'_cons'.mp hccs).2
    by_cases hcw : c.isWhitespace = true
    · rw [if_pos hcw]
      rw [fixPunct_id (pend ++ [c]) cs ?hallws ?hch]
      · rw [List.append_assoc]
        rfl
      case hallws =>
        intro x hx
        rcases List.mem_append.mp hx with h1 | h2
        · exact hws x h1
        · have hx2 : x = c := by simpa using h2
          exact hx2 ▸ hcw
      case hch =>
        rw [List.append_assoc]
        simpa using h
    · rw [if_neg hcw]
      by_cases hpc : isPunct c = true ∧ pend ≠ []
      · exfalso
        obtain ⟨hpunct, hpne⟩ := hpc
        have hz := List.getLast?_eq_getLast_of_ne_nil hpne
        refine hlh (pend.getLast hpne) hz c (by simp) ?_
        exact ⟨hws _ (List.getLast_mem hpne), hpunct⟩
      · rw [if_neg hpc, fixPunct_id [] cs (by simp) (by simpa using hcs)]
        rfl

theorem stripChars_infix (cs : List Char) : stripChars cs <:+: cs := by
  have h1 : (cs.dropWhile Char.isWhitespace).reverse.dropWhile Char.isWhitespace
      <:+ (cs.dropWhile Char.isWhitespace).reverse :=
    List.dropWhile_suffix Char.isWhitespace
  have h2 : stripChars cs <+: cs.dropWhile Char.isWhitespace := by
    rw [← List.reverse_suffix, stripChars, List.reverse_reverse]
    exact h1
  exact h2.isInfix.trans (List.dropWhile_suffix Char.isWhitespace).isInfix

theorem cleanChars_idem (cs : List Char) (hdot : '.' ∉ cs) :
    stripChars (fixPunct (collapseDots (collapseWs
      (stripChars (fixPunct (collapseDots (collapseWs cs))))))) =
    stripChars (fixPunct (collapseDots (collapseWs cs))) := by
  have hXdot : '.' ∉ collapseWs cs := by
    intro hm
    rcases mem_collapseWs cs '.' hm with ⟨hmem, _⟩ | hsp
    · exact hdot hmem
    · cases hsp
  rw [show collapseDots (collapseWs cs) = collapseWs cs from
    collapseDots_id _ hXdot]
  have hYdot : '.' ∉ fixPunct (collapseWs cs) := by
    intro hm
    rcases mem_fixPunctAux [] _ '.' hm with hp | hl
    · exact absurd hp (List.not_mem_nil _)
    · exact hXdot hl
  have hYso : spaceOnly (fixPunct (collapseWs cs)) := by
    intro x hx hws
    rcases mem_fixPunctAux [] _ x hx with hp | hl
    · exact absurd hp (List.not_mem_nil _)
    · exact collapseWs_spaceOnly cs x hl hws
  have hYws : List.Chain' noAdjWs (fixPunct (collapseWs cs)) :=
    fixPunct_chain_ws [] _ (by simpa using collapseWs_chain cs)
  have hYpc : List.Chain' noWsPunct (fixPunct (collapseWs cs)) :=
    fixPunct_chain_punct [] _ (by simp)
  have hinf : stripChars (fixPunct (collapseWs cs)) <:+: fixPunct (collapseWs cs) :=
    stripChars_infix _
  have hLdot : '.' ∉ stripChars (fixPunct (collapseWs cs)) :=
    fun hm => hYdot (hinf.sublist.subset hm)
  have hLso : spaceOnly (stripChars (fixPunct (collapseWs cs))) :=
    fun x hx hws => hYso x (hinf.sublist.subset hx) hws
  have hLws : List.Chain' noAdjWs (stripChars (fixPunct (collapseWs cs))) :=
    hYws.infix hinf
  have hLpc : List.Chain' noWsPunct (stripChars (fixPunct (collapseWs cs))) :=
    hYpc.infix hinf
  rw [collapseWs_id _ hLso hLws, show collapseDots
    (stripChars (fixPunct (collapseWs cs)))
    = stripChars (fixPunct (collapseWs cs)) from collapseDots_id _ hLdot]
  rw [show fixPunct (stripChars (fixPunct (collapseWs cs)))
    = stripChars (fixPunct (collapseWs cs)) by
      rw [fixPunct, fixPunct_id [] _ (by simp) (by simpa using hLpc)]
      rfl]
  exact stripChars_idem _

/-- Counterexample for C10: `_clean_text` is not idempotent.  On
`"a. ."` the third substitution joins the dots into `"a.."`, and a
second application collapses that dot run into a space, yielding `"a"`. -/
theorem clean_text_not_idempotent :
    clean_text (clean_text "a. .") ≠ clean_text "a. ." := by decide

/-- C10 (amended): `_clean_text` is idempotent on every string that
contains no `'.'` character; on strings with dots a second application
can differ, as the counterexample shows. -/
theorem clean_text_idempotent_of_no_dot :
    ∀ s : String, '.' ∉ s.data →
      clean_text (clean_text s) = clean_text s := by
  intro s hdot
  by_cases hs : s = ""
  · rw [hs]
    rfl
  · have hcs : clean_text s
        = ⟨stripChars (fixPunct (collapseDots (collapseWs s.data)))⟩ := by
      rw [clean_text, if_neg hs]
    rw [hcs]
    by_cases hL : stripChars (fixPunct (collapseDots (collapseWs s.data))) = []
    · rw [hL]
      rfl
    · have hLne :
          ¬((⟨stripChars (fixPunct (collapseDots (collapseWs s.data)))⟩ : String)
            = "") :=
        fun h => hL (congrArg String.data h)
      rw [clean_text, if_neg hLne]
      exact congrArg String.mk (cleanChars_idem s.data hdot)

/-- Witness for the amended C10: the dot-free string `"a  b!"` is a
fixed point of a second `_clean_text` application. -/
theorem clean_text_idempotent_of_no_dot_witness :
    clean_text (clean_text "a  b!") = clean_text "a  b!" :=
  clean_text_idempotent_of_no_dot "a  b!" (by decide)

end Textxtract
